import Mathlib

/-!
# Verification of the FreqDemod demodulation pipeline

This file gives a shallow embedding of the core numerical routines of the
FreqDemod repository (`freqdemod/demodulate.py` and `freqdemod/freqdemod.py`)
and proves or refutes the frozen specification claims about them.

Conventions of the embedding:

* Python floating-point arithmetic is modelled by exact real arithmetic
  (`ℝ`, and `ℂ` for the FFT); "within floating-point tolerance" in the
  spec therefore becomes exact equality here.
* `numpy` arrays are modelled by `List`s or by functions on `ZMod n` /
  `Fin n` index types, whichever is closest to the access pattern of
  the source.
* Python code that raises an exception (negative `np.ones` dimension,
  unbound local name on an unrecognised mode string) is modelled by
  `Option`, with `none` for the raising branch.
-/

/-! ## Segmented linear-fit frequency estimator  (`Signal.fit`, demodulate.py)

The source, for chunk `j` of `n_per_chunk` samples (Python):

    n_per_chunk = int(round(dt_chunk_target/self.signal['dt']))
    s_sub_reset = s_sub - s_sub[:,:,np.newaxis][:,0,:]*np.ones(n_per_chunk)
    t_sub_reset = t_sub - t_sub[:,:,np.newaxis][:,0,:]*np.ones(n_per_chunk)
    SX  = (dt)*0.50*(n_per_chunk-1)*(n_per_chunk)
    SXX = (dt)**2*(1/6.0)*(n_per_chunk)*(n_per_chunk-1)*(2*n_per_chunk-1)
    SY  = np.sum(s_sub_reset,axis=1)
    SXY = np.sum(t_sub_reset*s_sub_reset,axis=1)
    slope = (n_per_chunk*SXY-SX*SY)/(n_per_chunk*SXX-SX*SX)

with the time axis `t[k] = dt*k` (from `load_nparray`: `x = dt*np.arange(.)`),
so chunk `j` covers samples `j*n_per_chunk + i`, `i < n_per_chunk`.
-/

/-- `n_per_chunk = int(round(dt_chunk_target/dt))` of `Signal.fit`.  Python 2's
`round` rounds half away from zero; for the nonnegative durations used by the
pipeline this agrees with Mathlib's `round` (round half up). -/
noncomputable def nPerChunk (dt_chunk_target dt : ℝ) : ℤ :=
  round (dt_chunk_target / dt)

/-- The analytically computed sum `SX` of `Signal.fit`:
`dt*0.50*(n_per_chunk-1)*(n_per_chunk)`. -/
noncomputable def fitSX (dt : ℝ) (nper : ℕ) : ℝ :=
  dt * 0.50 * ((nper : ℝ) - 1) * (nper : ℝ)

/-- The analytically computed sum `SXX` of `Signal.fit`:
`dt**2*(1/6.0)*(n_per_chunk)*(n_per_chunk-1)*(2*n_per_chunk-1)`. -/
noncomputable def fitSXX (dt : ℝ) (nper : ℕ) : ℝ :=
  dt ^ 2 * (1 / 6) * (nper : ℝ) * ((nper : ℝ) - 1) * (2 * (nper : ℝ) - 1)

/-- `SY` for chunk `j`: the per-chunk sum of the phase samples after the
chunk's first phase sample has been subtracted (`s_sub_reset`). -/
noncomputable def fitSY (theta : ℕ → ℝ) (nper j : ℕ) : ℝ :=
  ∑ i in Finset.range nper, (theta (j * nper + i) - theta (j * nper))

/-- `SXY` for chunk `j`: the per-chunk sum of (reset time)·(reset phase),
with the time axis `t k = dt*k` and the chunk's first time sample
subtracted (`t_sub_reset`). -/
noncomputable def fitSXY (theta : ℕ → ℝ) (dt : ℝ) (nper j : ℕ) : ℝ :=
  ∑ i in Finset.range nper,
    (dt * (j * nper + i : ℕ) - dt * (j * nper : ℕ)) *
      (theta (j * nper + i) - theta (j * nper))

/-- The denominator `n_per_chunk*SXX - SX*SX` of the closed-form slope. -/
noncomputable def fitDenom (dt : ℝ) (nper : ℕ) : ℝ :=
  (nper : ℝ) * fitSXX dt nper - fitSX dt nper * fitSX dt nper

/-- The closed-form least-squares slope of chunk `j` computed by
`Signal.fit`: `(n_per_chunk*SXY - SX*SY)/(n_per_chunk*SXX - SX*SX)`. -/
noncomputable def fitSlope (theta : ℕ → ℝ) (dt : ℝ) (nper j : ℕ) : ℝ :=
  ((nper : ℝ) * fitSXY theta dt nper j - fitSX dt nper * fitSY theta nper j) /
    fitDenom dt nper

/-- Gauss sum over `ℝ`: `∑ i in range m, i = m (m-1) / 2`. -/
lemma sum_range_id_real (m : ℕ) :
    ∑ i in Finset.range m, (i : ℝ) = (m : ℝ) * ((m : ℝ) - 1) / 2 := by
  induction m with
  | zero => simp
  | succ m ih =>
      rw [Finset.sum_range_succ, ih]
      push_cast
      ring

/-- Gauss sum of squares over `ℝ`:
`∑ i in range m, i² = m (m-1) (2m-1) / 6`. -/
lemma sum_range_sq_real (m : ℕ) :
    ∑ i in Finset.range m, (i : ℝ) ^ 2 =
      (m : ℝ) * ((m : ℝ) - 1) * (2 * (m : ℝ) - 1) / 6 := by
  induction m with
  | zero => simp
  | succ m ih =>
      rw [Finset.sum_range_succ, ih]
      push_cast
      ring

/-- The slope denominator factors as `dt² n² (n-1)(n+1) / 12`. -/
lemma fitDenom_eq (dt : ℝ) (nper : ℕ) :
    fitDenom dt nper =
      dt ^ 2 * (nper : ℝ) ^ 2 * ((nper : ℝ) - 1) * ((nper : ℝ) + 1) / 12 := by
  unfold fitDenom fitSXX fitSX
  ring

/-- For `dt ≠ 0` and at least two samples per chunk the slope denominator
is nonzero. -/
lemma fitDenom_ne_zero {dt : ℝ} (hdt : dt ≠ 0) {nper : ℕ} (h2 : 2 ≤ nper) :
    fitDenom dt nper ≠ 0 := by
  rw [fitDenom_eq]
  have hn : (2 : ℝ) ≤ (nper : ℝ) := by exact_mod_cast h2
  have h1 : (0 : ℝ) < (nper : ℝ) - 1 := by linarith
  have h0 : (0 : ℝ) < (nper : ℝ) := by linarith
  have h3 : (0 : ℝ) < (nper : ℝ) + 1 := by linarith
  have hdt2 : (0 : ℝ) < dt ^ 2 := by positivity
  have : (0 : ℝ) < dt ^ 2 * (nper : ℝ) ^ 2 * ((nper : ℝ) - 1) * ((nper : ℝ) + 1) / 12 := by
    positivity
  exact ne_of_gt this

/-- On an exact linear ramp `theta k = c * (dt * k)` every chunk's
closed-form slope is exactly `c`, for any chunk size of at least two
samples and any chunk index. -/
lemma fitSlope_linear (c dt : ℝ) (nper j : ℕ) (hdt : dt ≠ 0) (h2 : 2 ≤ nper) :
    fitSlope (fun k => c * (dt * (k : ℕ))) dt nper j = c := by
  have hSY : fitSY (fun k => c * (dt * (k : ℕ))) nper j =
      c * dt * ((nper : ℝ) * ((nper : ℝ) - 1) / 2) := by
    unfold fitSY
    have : ∀ i ∈ Finset.range nper,
        (c * (dt * ((j * nper + i : ℕ) : ℝ)) - c * (dt * ((j * nper : ℕ) : ℝ)))
          = c * dt * (i : ℝ) := by
      intro i _
      push_cast
      ring
    rw [Finset.sum_congr rfl this, ← Finset.mul_sum, sum_range_id_real]
  have hSXY : fitSXY (fun k => c * (dt * (k : ℕ))) dt nper j =
      c * dt ^ 2 * ((nper : ℝ) * ((nper : ℝ) - 1) * (2 * (nper : ℝ) - 1) / 6) := by
    unfold fitSXY
    have : ∀ i ∈ Finset.range nper,
        (dt * ((j * nper + i : ℕ) : ℝ) - dt * ((j * nper : ℕ) : ℝ)) *
          ((fun k => c * (dt * (k : ℕ))) (j * nper + i) -
            (fun k => c * (dt * (k : ℕ))) (j * nper))
          = c * dt ^ 2 * (i : ℝ) ^ 2 := by
      intro i _
      simp only
      push_cast
      ring
    rw [Finset.sum_congr rfl this, ← Finset.mul_sum, sum_range_sq_real]
  have hden := fitDenom_ne_zero hdt h2
  unfold fitSlope
  rw [hSY, hSXY, div_eq_iff hden]
  rw [fitDenom_eq]
  unfold fitSX
  ring

/-- **C1** (amended).  For an exact linear phase ramp
`θ(t) = 2π·f0·t` sampled at `t = dt·k` (no noise), the segmented
linear fit of `Signal.fit` recovers the ramp's slope `2π·f0` exactly in
every chunk, for every chunk size of at least 2 samples and every chunk
index — independent of chunk size.  (Equivalently, it recovers `f0`
exactly when the phase is expressed in cycles, `θ(t) = f0·t`, which is
what the code's `unwrap(angle(z))/(2π)` phase is.) -/
theorem fit_linear_ramp_slope (f0 dt : ℝ) (nper j : ℕ)
    (hdt : dt ≠ 0) (h2 : 2 ≤ nper) :
    fitSlope (fun k => 2 * Real.pi * f0 * (dt * (k : ℕ))) dt nper j
      = 2 * Real.pi * f0 := by
  exact fitSlope_linear (2 * Real.pi * f0) dt nper j hdt h2

/-- Witness for `fit_linear_ramp_slope` at `f0 = 1`, `dt = 1`,
`nper = 2`, `j = 0`. -/
theorem fit_linear_ramp_slope_witness :
    (1 : ℝ) ≠ 0 ∧ 2 ≤ 2 ∧
      fitSlope (fun k => 2 * Real.pi * 1 * (1 * (k : ℕ))) 1 2 0
        = 2 * Real.pi * 1 :=
  ⟨by norm_num, by norm_num,
    fit_linear_ramp_slope 1 1 2 0 (by norm_num) (by norm_num)⟩

/-- **C1** (counterexample to the claim as stated).  On the ramp
`θ(t) = 2π·f0·t` with `f0 = 1`, `dt = 1` and chunk size 2, the fitted
slope is `2π·f0 = 2π`, not `f0 = 1`: the claim that the fit "recovers
the slope f0" fails for this ramp, because the ramp's slope is `2π·f0`. -/
theorem fit_linear_ramp_counterexample :
    fitSlope (fun k => 2 * Real.pi * 1 * ((1 : ℝ) * (k : ℕ))) 1 2 0 ≠ 1 := by
  have h := fitSlope_linear (2 * Real.pi * 1) 1 2 0 (by norm_num) (by norm_num)
  rw [h]
  have hpi : (3 : ℝ) < Real.pi := Real.pi_gt_three
  intro hcontra
  nlinarith

/-- **C6** (code evaluated at the failing input).  `Signal.fit` has no
guard on the chunk size: with `dt_chunk_target = dt` the computed chunk
size is `round(1) = 1` sample, for which the closed-form denominator
`n·SXX − SX²` is exactly zero, so the slope formula divides by zero for
every chunk and every phase sequence.  The code performs this division
unguarded (in numpy it silently yields NaN); in this exact embedding the
division-by-zero junk value `0` is returned instead of an error. -/
theorem fit_chunk_degenerate (dt : ℝ) (theta : ℕ → ℝ) (j : ℕ) (hdt : dt ≠ 0) :
    nPerChunk dt dt = 1 ∧ fitDenom dt 1 = 0 ∧ fitSlope theta dt 1 j = 0 := by
  refine ⟨?_, ?_, ?_⟩
  · unfold nPerChunk
    rw [div_self hdt]
    exact round_one
  · rw [fitDenom_eq]; norm_num
  · unfold fitSlope
    rw [fitDenom_eq]
    norm_num

/-- Witness for `fit_chunk_degenerate` at `dt = 1`, zero phase, chunk 0. -/
theorem fit_chunk_degenerate_witness :
    nPerChunk 1 1 = 1 ∧ fitDenom 1 1 = 0 ∧
      fitSlope (fun _ => (0 : ℝ)) 1 1 0 = 0 :=
  fit_chunk_degenerate 1 (fun _ => (0 : ℝ)) 0 (by norm_num)

/-! ## Length Normalizer  (`Signal.time_mask_binarate`, demodulate.py;
`Signal.binarate`, freqdemod.py)

Python source (demodulate.py):

    n2 = int(math.pow(2,int(math.floor(math.log(n, 2)))))
    if mode == "middle":
        n_start = int(math.floor((n - n2)/2)); n_stop = int(n_start + n2)
    elif mode == "start":
        n_start = 0; n_stop = n2
    elif mode == "end":
        n_start = n-n2; n_stop = n
    mask = (indices >= n_start) & (indices < n_stop)

On any other mode string `n_start`/`n_stop` are never assigned and the
`mask = ...` line raises `UnboundLocalError`, so no dataset is created;
this raising branch is modelled by `none`.  `math.log` is modelled
exactly, so `int(math.floor(math.log(n, 2))) = Nat.log 2 n`.
-/

/-- `n2 = 2^floor(log2 n)`, the truncated power-of-two length. -/
def n2of (n : ℕ) : ℕ := 2 ^ Nat.log 2 n

/-- The index bounds `[n_start, n_stop)` chosen by the binarate mask for
each mode string; `none` models the `UnboundLocalError` raised on an
unrecognised mode. -/
def modeBounds (n : ℕ) (mode : String) : Option (ℕ × ℕ) :=
  if mode = "middle" then some ((n - n2of n) / 2, (n - n2of n) / 2 + n2of n)
  else if mode = "start" then some (0, n2of n)
  else if mode = "end" then some (n - n2of n, n)
  else none

/-- The boolean mask `(indices >= n_start) & (indices < n_stop)` of
`Signal.time_mask_binarate`, as a length-`n` list; `none` models the
exception raised on an unrecognised mode (no artifact is stored). -/
def timeMaskBinarate (n : ℕ) (mode : String) : Option (List Bool) :=
  (modeBounds n mode).map fun p =>
    (List.range n).map fun i => decide (p.1 ≤ i ∧ i < p.2)

/-- The part of the HDF5 artifact store touched by the mask stage: the
ingested signal `y` (dataset `'y'`) and the mask artifact
`'workup/time/mask/binarate'`. -/
structure DState where
  y : List ℝ
  maskBinarate : Option (List Bool)

/-- `Signal.time_mask_binarate` as a state transformer: on success it
only creates the new mask artifact (it never touches `y`); on an
unrecognised mode it raises before `create_dataset`, modelled by `none`. -/
def dTimeMaskBinarate (mode : String) (st : DState) : Option DState :=
  (timeMaskBinarate st.y.length mode).map fun m =>
    { st with maskBinarate := some m }

/-- The signal dictionary of freqdemod.py's `Signal`: the ingested
sample sequence `s` and the `s_original` slot (initialised to `[]`). -/
structure FSignal where
  s : List ℚ
  s_original : List ℚ
deriving DecidableEq

/-- freqdemod.py's `Signal.binarate`: saves a copy of `s` in
`s_original`, then *overwrites* `s` with the slice `s[n_start:n_stop]`
chosen by the mode.  `none` models the `NameError` on an unrecognised
mode. -/
def binarate (mode : String) (sig : FSignal) : Option FSignal :=
  (modeBounds sig.s.length mode).map fun p =>
    { s := (sig.s.drop p.1).take (p.2 - p.1), s_original := sig.s }

/-- `n2of n ≤ n` for `n ≥ 1`. -/
lemma n2of_le {n : ℕ} (hn : 1 ≤ n) : n2of n ≤ n :=
  Nat.pow_log_le_self 2 (by omega)

/-- `1 ≤ n2of n`. -/
lemma n2of_pos (n : ℕ) : 1 ≤ n2of n :=
  Nat.one_le_two_pow

/-- When `n` is a power of two, `n2of n = n`. -/
lemma n2of_pow {k : ℕ} : n2of (2 ^ k) = 2 ^ k := by
  unfold n2of
  rw [Nat.log_pow (by norm_num)]

/-- **C3**.  For every signal length `n ≥ 1` and every mode among
"start", "middle", "end", the binarate stage produces bounds
`[a, b)` of width exactly `n2 = 2^floor(log2 n)` with `b ≤ n`,
given by `[0, n2)` for "start", `a = (n−n2)/2`, `b = a + n2` for
"middle", and `[n−n2, n)` for "end"; the stored mask is the length-`n`
boolean list that is true exactly on `[a, b)`; and when `n` is already a
power of two the mask is true at every index, for every mode. -/
theorem binarate_mask_spec (n : ℕ) (hn : 1 ≤ n) (mode : String)
    (hm : mode = "start" ∨ mode = "middle" ∨ mode = "end") :
    ∃ a b, modeBounds n mode = some (a, b) ∧
      b - a = n2of n ∧ b ≤ n ∧
      (mode = "start" → a = 0 ∧ b = n2of n) ∧
      (mode = "middle" → a = (n - n2of n) / 2 ∧ b = a + n2of n) ∧
      (mode = "end" → a = n - n2of n ∧ b = n) ∧
      timeMaskBinarate n mode =
        some ((List.range n).map fun i => decide (a ≤ i ∧ i < b)) ∧
      ((∃ k, n = 2 ^ k) → ∀ i, i < n → (a ≤ i ∧ i < b)) := by
  have h2 := n2of_le hn
  have hfull : (∃ k, n = 2 ^ k) → n2of n = n := by
    rintro ⟨k, rfl⟩
    exact n2of_pow
  rcases hm with hm | hm | hm
  · refine ⟨0, n2of n, ?_, by omega, h2, ?_, ?_, ?_, ?_, ?_⟩
    · simp [modeBounds, hm]
    · exact fun _ => ⟨rfl, rfl⟩
    · intro h; rw [hm] at h; exact absurd h (by decide)
    · intro h; rw [hm] at h; exact absurd h (by decide)
    · simp [timeMaskBinarate, modeBounds, hm]
    · intro hp i hi
      have := hfull hp
      omega
  · refine ⟨(n - n2of n) / 2, (n - n2of n) / 2 + n2of n, ?_, by omega, by omega,
      ?_, ?_, ?_, ?_, ?_⟩
    · simp [modeBounds, hm]
    · intro h; rw [hm] at h; exact absurd h (by decide)
    · exact fun _ => ⟨rfl, rfl⟩
    · intro h; rw [hm] at h; exact absurd h (by decide)
    · simp [timeMaskBinarate, modeBounds, hm]
    · intro hp i hi
      have := hfull hp
      omega
  · refine ⟨n - n2of n, n, ?_, by omega, le_refl n, ?_, ?_, ?_, ?_, ?_⟩
    · simp [modeBounds, hm]
    · intro h; rw [hm] at h; exact absurd h (by decide)
    · intro h; rw [hm] at h; exact absurd h (by decide)
    · exact fun _ => ⟨rfl, rfl⟩
    · simp [timeMaskBinarate, modeBounds, hm]
    · intro hp i hi
      have := hfull hp
      omega

/-- Witness for `binarate_mask_spec` at `n = 5`, mode "middle"
(`n2 = 4`, bounds `[0, 4)`). -/
theorem binarate_mask_spec_witness :
    (1 ≤ 5 ∧ ("middle" = "start" ∨ "middle" = "middle" ∨ "middle" = "end")) ∧
      ∃ a b, modeBounds 5 "middle" = some (a, b) ∧
        b - a = n2of 5 ∧ b ≤ 5 ∧
        ("middle" = "start" → a = 0 ∧ b = n2of 5) ∧
        ("middle" = "middle" → a = (5 - n2of 5) / 2 ∧ b = a + n2of 5) ∧
        ("middle" = "end" → a = 5 - n2of 5 ∧ b = 5) ∧
        timeMaskBinarate 5 "middle" =
          some ((List.range 5).map fun i => decide (a ≤ i ∧ i < b)) ∧
        ((∃ k, 5 = 2 ^ k) → ∀ i, i < 5 → (a ≤ i ∧ i < b)) :=
  ⟨⟨by norm_num, Or.inr (Or.inl rfl)⟩,
    binarate_mask_spec 5 (by norm_num) "middle" (Or.inr (Or.inl rfl))⟩

/-- **C10**.  For every mode string other than "start", "middle", "end",
the binarate stage fails: no index bounds are produced, evaluating the
mask raises (modelled by `none`), and no mask artifact is stored in the
state — there is no silent default range and no usable no-op mask. -/
theorem invalid_mode_fails (n : ℕ) (mode : String) (st : DState)
    (hm : mode ≠ "start" ∧ mode ≠ "middle" ∧ mode ≠ "end") :
    modeBounds n mode = none ∧ timeMaskBinarate n mode = none ∧
      dTimeMaskBinarate mode st = none := by
  have hb : modeBounds n mode = none := by
    simp [modeBounds, hm.1, hm.2.1, hm.2.2]
  have hb' : ∀ m : ℕ, modeBounds m mode = none := by
    intro m
    simp [modeBounds, hm.1, hm.2.1, hm.2.2]
  refine ⟨hb, ?_, ?_⟩
  · simp [timeMaskBinarate, hb]
  · simp [dTimeMaskBinarate, timeMaskBinarate, hb']

/-- Witness for `invalid_mode_fails` with the misspelled mode "center". -/
theorem invalid_mode_fails_witness :
    ("center" ≠ "start" ∧ "center" ≠ "middle" ∧ "center" ≠ "end") ∧
      modeBounds 8 "center" = none ∧ timeMaskBinarate 8 "center" = none ∧
        dTimeMaskBinarate "center" ⟨[0, 1, 2], none⟩ = none :=
  ⟨⟨by decide, by decide, by decide⟩,
    invalid_mode_fails 8 "center" ⟨[0, 1, 2], none⟩
      ⟨by decide, by decide, by decide⟩⟩

/-! ## Spectral transform  (`Signal.fft` / `Signal.ifft`, demodulate.py)

Python source (forward, after optional mask and window):

    sFT = dt * np.fft.fftshift(np.fft.fft(s))

and inverse, with no filters defined:

    s = self.f['workup/freq/FT'][:]/self.f['x'].attrs['step']
    sIFT = np.fft.ifft(np.fft.fftshift(s))

`np.fft.fft` is the unnormalised DFT `A_k = Σ_m a_m exp(-2πi m k / n)`,
`np.fft.ifft` its `1/n`-normalised inverse, and `np.fft.fftshift` is
`np.roll(x, n // 2)`, i.e. `out[i] = x[(i - n//2) mod n]`.  Signals of
length `n` are modelled as functions `ZMod n → ℂ` and floating-point
FFT arithmetic as the exact DFT. -/

/-- The primitive `n`-th root of unity `exp(2πi/n)` underlying the DFT. -/
noncomputable def zetaRoot (n : ℕ) : ℂ :=
  Complex.exp (2 * Real.pi * Complex.I / n)

/-- `np.fft.fft`: the unnormalised discrete Fourier transform. -/
noncomputable def npFFT (n : ℕ) [NeZero n] (s : ZMod n → ℂ) : ZMod n → ℂ :=
  fun k => ∑ m : ZMod n,
    s m * Complex.exp (-(2 * Real.pi * Complex.I) * ((ZMod.val m * ZMod.val k : ℕ) : ℂ) / (n : ℂ))

/-- `np.fft.ifft`: the `1/n`-normalised inverse discrete Fourier
transform. -/
noncomputable def npIFFT (n : ℕ) [NeZero n] (x : ZMod n → ℂ) : ZMod n → ℂ :=
  fun j => (∑ k : ZMod n,
    x k * Complex.exp ((2 * Real.pi * Complex.I) * ((ZMod.val j * ZMod.val k : ℕ) : ℂ) / (n : ℂ))) / (n : ℂ)

/-- `np.fft.fftshift`, i.e. `np.roll(x, n // 2)`:
`out[i] = x[(i - n//2) mod n]`. -/
def fftshift (n : ℕ) (x : ZMod n → ℂ) : ZMod n → ℂ :=
  fun i => x (i - ((n / 2 : ℕ) : ZMod n))

/-- `exp(2πi·c/n)` is the `c`-th power of the primitive root. -/
lemma exp_pos_eq_zeta (n : ℕ) (c : ℕ) :
    Complex.exp ((2 * Real.pi * Complex.I) * (c : ℂ) / (n : ℂ)) =
      zetaRoot n ^ (c : ℤ) := by
  unfold zetaRoot
  rw [← Complex.exp_int_mul]
  congr 1
  push_cast
  ring

/-- `exp(-2πi·c/n)` is the `(-c)`-th power of the primitive root. -/
lemma exp_neg_eq_zeta (n : ℕ) (c : ℕ) :
    Complex.exp (-(2 * Real.pi * Complex.I) * (c : ℂ) / (n : ℂ)) =
      zetaRoot n ^ (-(c : ℤ)) := by
  unfold zetaRoot
  rw [← Complex.exp_int_mul]
  congr 1
  push_cast
  ring

/-- Orthogonality of the DFT characters, over `range n`:
`Σ_{k<n} ζ^(d·k)` is `n` when `n ∣ d` and `0` otherwise. -/
lemma zeta_sum_range (n : ℕ) (hn : n ≠ 0) (d : ℤ) :
    ∑ k in Finset.range n, zetaRoot n ^ (d * (k : ℤ)) =
      if (n : ℤ) ∣ d then (n : ℂ) else 0 := by
  have hprim : IsPrimitiveRoot (zetaRoot n) n := Complex.isPrimitiveRoot_exp n hn
  by_cases hd : (n : ℤ) ∣ d
  · rw [if_pos hd]
    have h1 : zetaRoot n ^ d = 1 := (hprim.zpow_eq_one_iff_dvd d).mpr hd
    have hterm : ∀ k ∈ Finset.range n, zetaRoot n ^ (d * (k : ℤ)) = 1 := by
      intro k _
      rw [zpow_mul, h1, one_zpow]
    rw [Finset.sum_congr rfl hterm]
    simp
  · rw [if_neg hd]
    have hx1 : zetaRoot n ^ d ≠ 1 := fun h => hd ((hprim.zpow_eq_one_iff_dvd d).mp h)
    have hterm : ∀ k ∈ Finset.range n, zetaRoot n ^ (d * (k : ℤ)) = (zetaRoot n ^ d) ^ k := by
      intro k _
      rw [zpow_mul, zpow_natCast]
    rw [Finset.sum_congr rfl hterm, geom_sum_eq hx1]
    have hxn : (zetaRoot n ^ d) ^ n = 1 := by
      rw [← zpow_natCast (zetaRoot n ^ d) n, ← zpow_mul, mul_comm, zpow_mul,
        zpow_natCast, hprim.pow_eq_one, one_zpow]
    rw [hxn]
    simp

/-- Summing a function of `ZMod.val` over `ZMod n` is summing over
`range n`. -/
lemma sum_zmod_val {M : Type} [AddCommMonoid M] (n : ℕ) [NeZero n] (f : ℕ → M) :
    ∑ k : ZMod n, f (ZMod.val k) = ∑ k in Finset.range n, f k := by
  cases n with
  | zero => exact absurd rfl (NeZero.ne 0)
  | succ m => exact Fin.sum_univ_eq_sum_range (fun k => f k) (m + 1)

/-- Orthogonality of the DFT characters, over `ZMod n`. -/
lemma zeta_sum_zmod (n : ℕ) [NeZero n] (d : ℤ) :
    ∑ k : ZMod n, zetaRoot n ^ (d * (ZMod.val k : ℤ)) =
      if (n : ℤ) ∣ d then (n : ℂ) else 0 := by
  have h := sum_zmod_val n (fun t => zetaRoot n ^ (d * (t : ℤ)))
  rw [h, zeta_sum_range n (NeZero.ne n) d]

/-- Fourier inversion for the numpy conventions:
`np.fft.ifft` inverts `np.fft.fft` exactly. -/
lemma npIFFT_npFFT (n : ℕ) [NeZero n] (s : ZMod n → ℂ) :
    npIFFT n (npFFT n s) = s := by
  have hn : n ≠ 0 := NeZero.ne n
  have hz : zetaRoot n ≠ 0 := Complex.exp_ne_zero _
  have hnC : (n : ℂ) ≠ 0 := Nat.cast_ne_zero.mpr hn
  funext j
  have step1 : npIFFT n (npFFT n s) j =
      (∑ k : ZMod n, ∑ m : ZMod n,
        s m * zetaRoot n ^ (((ZMod.val j : ℤ) - (ZMod.val m : ℤ)) * (ZMod.val k : ℤ))) / (n : ℂ) := by
    unfold npIFFT npFFT
    congr 1
    apply Finset.sum_congr rfl
    intro k _
    rw [exp_pos_eq_zeta n, Finset.sum_mul]
    apply Finset.sum_congr rfl
    intro m _
    rw [exp_neg_eq_zeta n, mul_assoc, ← zpow_add₀ hz]
    congr 1
    push_cast
    ring_nf
  have step2 : (∑ k : ZMod n, ∑ m : ZMod n,
      s m * zetaRoot n ^ (((ZMod.val j : ℤ) - (ZMod.val m : ℤ)) * (ZMod.val k : ℤ)))
      = ∑ m : ZMod n, s m *
          (if ((n : ℤ) ∣ ((ZMod.val j : ℤ) - (ZMod.val m : ℤ))) then (n : ℂ) else 0) := by
    rw [Finset.sum_comm]
    apply Finset.sum_congr rfl
    intro m _
    rw [← Finset.mul_sum, zeta_sum_zmod]
  have step3 : (∑ m : ZMod n, s m *
      (if ((n : ℤ) ∣ ((ZMod.val j : ℤ) - (ZMod.val m : ℤ))) then (n : ℂ) else 0))
      = s j * (n : ℂ) := by
    rw [Finset.sum_eq_single j]
    · rw [if_pos (by simp)]
    · intro m _ hm
      rw [if_neg, mul_zero]
      intro hdvd
      apply hm
      have hjlt : ZMod.val j < n := ZMod.val_lt j
      have hmlt : ZMod.val m < n := ZMod.val_lt m
      obtain ⟨c, hc⟩ := hdvd
      have hnpos : (0 : ℤ) < (n : ℤ) := by exact_mod_cast Nat.pos_of_ne_zero hn
      have hb1 : (n : ℤ) * c < n := by
        rw [← hc]
        omega
      have hb2 : -(n : ℤ) < (n : ℤ) * c := by
        rw [← hc]
        omega
      have hc0 : c = 0 := by
        rcases lt_trichotomy c 0 with hlt | heq | hgt
        · exfalso
          have h1 : (n : ℤ) * c ≤ (n : ℤ) * (-1) :=
            mul_le_mul_of_nonneg_left (by omega) hnpos.le
          rw [mul_neg_one] at h1
          linarith
        · exact heq
        · exfalso
          have h1 : (n : ℤ) * 1 ≤ (n : ℤ) * c :=
            mul_le_mul_of_nonneg_left (by omega) hnpos.le
          rw [mul_one] at h1
          linarith
      rw [hc0, mul_zero] at hc
      have : ZMod.val m = ZMod.val j := by omega
      exact ZMod.val_injective n this
    · intro hj
      exact absurd (Finset.mem_univ j) hj
  rw [step1, step2, step3, mul_div_cancel_right₀ _ hnC]

/-- Applying `fftshift` twice is the identity when `n = 1` or `n` is
even (in particular for every power of two, the length guaranteed by
the binarate mask). -/
lemma fftshift_fftshift (n : ℕ) [NeZero n] (hn : n = 1 ∨ 2 ∣ n)
    (x : ZMod n → ℂ) : fftshift n (fftshift n x) = x := by
  funext i
  unfold fftshift
  congr 1
  rcases hn with h1 | h2
  · subst h1
    exact Subsingleton.elim _ _
  · obtain ⟨m, rfl⟩ := h2
    have hhalf : 2 * m / 2 = m := by omega
    rw [hhalf]
    have hzero : ((m : ℕ) : ZMod (2 * m)) + ((m : ℕ) : ZMod (2 * m)) = 0 := by
      rw [← Nat.cast_add]
      have h2m : m + m = 2 * m := by ring
      rw [h2m, ZMod.natCast_self]
    rw [sub_sub, hzero, sub_zero]

/-- **C2**.  Round-trip law: for every signal whose (masked) length is a
power of two — which the binarate mask guarantees — and every `dt ≠ 0`,
the forward transform of `Signal.fft` (window the signal, DFT,
`fftshift`, scale by `dt`) followed immediately by the inverse transform
of `Signal.ifft` with no filters applied (un-scale by `dt`, `fftshift`,
inverse DFT) reproduces the windowed input signal `w·y` exactly. -/
theorem fft_ifft_roundtrip (n : ℕ) [NeZero n] (hpow : ∃ k, n = 2 ^ k)
    (dt : ℝ) (hdt : dt ≠ 0) (w ym : ZMod n → ℂ) :
    npIFFT n (fftshift n (fun k =>
        ((dt : ℂ) * fftshift n (npFFT n (fun i => w i * ym i)) k) / (dt : ℂ)))
      = fun i => w i * ym i := by
  have hdtC : (dt : ℂ) ≠ 0 := Complex.ofReal_ne_zero.mpr hdt
  have hcancel : (fun k =>
      ((dt : ℂ) * fftshift n (npFFT n (fun i => w i * ym i)) k) / (dt : ℂ))
      = fftshift n (npFFT n (fun i => w i * ym i)) := by
    funext k
    exact mul_div_cancel_left₀ _ hdtC
  have hn2 : n = 1 ∨ 2 ∣ n := by
    obtain ⟨k, rfl⟩ := hpow
    cases k with
    | zero => exact Or.inl rfl
    | succ k => exact Or.inr ⟨2 ^ k, by rw [pow_succ, mul_comm]⟩
  rw [hcancel, fftshift_fftshift n hn2, npIFFT_npFFT]

/-- Witness for `fft_ifft_roundtrip` at `n = 4`, `dt = 1`, constant
window and signal. -/
theorem fft_ifft_roundtrip_witness :
    (∃ k, 4 = 2 ^ k) ∧ (1 : ℝ) ≠ 0 ∧
      npIFFT 4 (fftshift 4 (fun k =>
          (((1 : ℝ) : ℂ) * fftshift 4 (npFFT 4 (fun _ => (1 : ℂ) * (1 : ℂ))) k) / ((1 : ℝ) : ℂ)))
        = fun _ => (1 : ℂ) * (1 : ℂ) :=
  ⟨⟨2, by norm_num⟩, by norm_num,
    fft_ifft_roundtrip 4 ⟨2, by norm_num⟩ 1 (by norm_num)
      (fun _ => (1 : ℂ)) (fun _ => (1 : ℂ))⟩

/-! ## Sideband (Hilbert-type) filter  (`Signal.freq_filter_Hilbert_complex`)

Python source:

    filt = 0.0*(freq < 0) + 1.0*(freq == 0) + 2.0*(freq > 0)

where the boolean comparison arrays are converted to 0/1 by the
multiplication. -/

/-- The pointwise value of the complex Hilbert transform filter at a
frequency `f`. -/
noncomputable def hilbertFilter (f : ℝ) : ℝ :=
  0 * (if f < 0 then 1 else 0) + 1 * (if f = 0 then 1 else 0) +
    2 * (if 0 < f then 1 else 0)

/-- **C5**.  At every frequency the Hilbert-type sideband filter value is
exactly one of `{0, 1, 2}`, and it is `0` wherever the frequency is
negative, `1` wherever the frequency is zero, and `2` wherever the
frequency is positive. -/
theorem hilbert_filter_values (f : ℝ) :
    (hilbertFilter f = 0 ∨ hilbertFilter f = 1 ∨ hilbertFilter f = 2) ∧
      (f < 0 → hilbertFilter f = 0) ∧
      (f = 0 → hilbertFilter f = 1) ∧
      (0 < f → hilbertFilter f = 2) := by
  rcases lt_trichotomy f 0 with h | h | h
  · have hne : f ≠ 0 := ne_of_lt h
    have hnp : ¬0 < f := not_lt.mpr h.le
    refine ⟨Or.inl ?_, fun _ => ?_, fun he => absurd he hne, fun hp => absurd hp hnp⟩ <;>
      simp [hilbertFilter, h, hne, hnp]
  · have hnl : ¬f < 0 := by rw [h]; exact lt_irrefl 0
    have hnp : ¬0 < f := by rw [h]; exact lt_irrefl 0
    refine ⟨Or.inr (Or.inl ?_), fun hl => absurd hl hnl, fun _ => ?_,
      fun hp => absurd hp hnp⟩ <;>
      simp [hilbertFilter, h]
  · have hnl : ¬f < 0 := not_lt.mpr h.le
    have hne : f ≠ 0 := ne_of_gt h
    refine ⟨Or.inr (Or.inr ?_), fun hl => absurd hl hnl,
      fun he => absurd he hne, fun _ => ?_⟩ <;>
      simp [hilbertFilter, h, hne, hnl]

/-- Witness for `hilbert_filter_values` at the frequencies `-1`, `0`, `1`. -/
theorem hilbert_filter_values_witness :
    hilbertFilter (-1) = 0 ∧ hilbertFilter 0 = 1 ∧ hilbertFilter 1 = 2 :=
  ⟨(hilbert_filter_values (-1)).2.1 (by norm_num),
    (hilbert_filter_values 0).2.2.1 rfl,
    (hilbert_filter_values 1).2.2.2 (by norm_num)⟩

/-! ## Resonance bandpass filter  (`Signal.freq_filter_bp`)

Python source:

    freq_scaled = (freq - fc)/bw
    bp = 1.0/(1.0+np.power(abs(freq_scaled),order))

with `fc` the detected center frequency (peak of the sideband-weighted
magnitude spectrum), and afterwards the unguarded centroid estimate:

    FT_filt = Hc*bp*abs(self.f['workup/freq/FT'][:])
    fc_improved = (freq*FT_filt).sum()/FT_filt.sum()
-/

/-- The pointwise bandpass filter value `1/(1 + |(f - fc)/bw|^order)`,
for a given (detected) center frequency `fc` and bandwidth `bw`. -/
noncomputable def bpFilter (fc bw : ℝ) (order : ℕ) (f : ℝ) : ℝ :=
  1 / (1 + |(f - fc) / bw| ^ order)

/-- **C4**.  For every bandwidth `bw > 0`, every integer order (even or
odd) and every offset `d`, the bandpass filter is symmetric about its
center frequency: `bp(fc + d) = bp(fc - d)`.  (The absolute value makes
this hold for odd orders too.) -/
theorem bp_filter_symmetric (fc bw : ℝ) (order : ℕ) (d : ℝ) (_hbw : 0 < bw) :
    bpFilter fc bw order (fc + d) = bpFilter fc bw order (fc - d) := by
  unfold bpFilter
  have h1 : fc + d - fc = d := by ring
  have h2 : fc - d - fc = -d := by ring
  rw [h1, h2, neg_div, abs_neg]

/-- Witness for `bp_filter_symmetric` at `fc = 5`, `bw = 1`, odd order
`3`, offset `d = 2`. -/
theorem bp_filter_symmetric_witness :
    (0 : ℝ) < 1 ∧ bpFilter 5 1 3 (5 + 2) = bpFilter 5 1 3 (5 - 2) :=
  ⟨by norm_num, bp_filter_symmetric 5 1 3 2 (by norm_num)⟩

/-- The filter-weighted, sideband-weighted magnitude spectrum
`FT_filt = Hc*bp*abs(FT)`. -/
noncomputable def FTfilt (n : ℕ) (Hc bp : Fin n → ℝ) (FT : Fin n → ℂ) :
    Fin n → ℝ :=
  fun i => Hc i * bp i * Complex.abs (FT i)

/-- The refined center-frequency (spectral centroid) estimate
`fc_improved = (freq*FT_filt).sum()/FT_filt.sum()` computed by
`Signal.freq_filter_bp` — the division is performed with no guard on the
denominator. -/
noncomputable def fcImproved (n : ℕ) (freq Hc bp : Fin n → ℝ)
    (FT : Fin n → ℂ) : ℝ :=
  (∑ i, freq i * FTfilt n Hc bp FT i) / (∑ i, FTfilt n Hc bp FT i)

/-- **C8** (code evaluated at the failing input).  On an all-zero
spectrum the weighted sum `FT_filt.sum()` is exactly `0`, and
`Signal.freq_filter_bp` still performs the centroid division by that
zero sum — there is no degenerate-input guard.  In numpy the division
silently yields NaN (only embedded into a report string); in this exact
embedding the division-by-zero junk value `0` is returned instead of an
error being raised. -/
theorem centroid_zero_spectrum (n : ℕ) (freq Hc bp : Fin n → ℝ) :
    (∑ i, FTfilt n Hc bp (fun _ => 0) i) = 0 ∧
      fcImproved n freq Hc bp (fun _ => 0) = 0 := by
  have h : ∀ i : Fin n, FTfilt n Hc bp (fun _ => (0 : ℂ)) i = 0 := by
    intro i
    simp [FTfilt]
  constructor
  · exact Finset.sum_eq_zero fun i _ => h i
  · unfold fcImproved
    rw [Finset.sum_eq_zero fun i _ => h i, div_zero]

/-! ## Edge window generator  (`Signal.time_window_cyclicize`)

Python source:

    ww = int(math.ceil((1.0*tw)/(1.0*dt)))
    w = np.concatenate([sp.blackman(2*ww)[0:ww],
                        np.ones(n-2*ww),
                        sp.blackman(2*ww)[-ww:]])

`np.ones(n-2*ww)` raises `ValueError` ("negative dimensions") exactly
when `n - 2*ww < 0`; for `n = 2*ww` it silently builds the window with
an empty constant run.  The raising branch is modelled by `none`.
`sp.blackman(M)[k] = 0.42 - 0.5 cos(2πk/(M-1)) + 0.08 cos(4πk/(M-1))`. -/

/-- `sp.blackman(M)[k]`, the `k`-th sample of the `M`-point Blackman
window. -/
noncomputable def blackmanVal (M : ℕ) (k : ℕ) : ℝ :=
  0.42 - 0.5 * Real.cos (2 * Real.pi * k / ((M : ℝ) - 1)) +
    0.08 * Real.cos (4 * Real.pi * k / ((M : ℝ) - 1))

/-- `ww = int(math.ceil(tw/dt))`, the window half-width in samples (for
the nonnegative durations used by the pipeline). -/
noncomputable def wwOf (tw dt : ℝ) : ℕ := ⌈tw / dt⌉₊

/-- The cyclicizing window of `Signal.time_window_cyclicize`: rising
half of a `2·ww`-point Blackman taper, `n - 2·ww` ones, falling half of
the same taper; `none` models the `ValueError` raised by
`np.ones(n-2*ww)` when `n - 2*ww < 0`. -/
noncomputable def cyclicizeWindow (ww n : ℕ) : Option (List ℝ) :=
  if n < 2 * ww then none
  else some ((List.range ww).map (fun k => blackmanVal (2 * ww) k)
    ++ List.replicate (n - 2 * ww) 1
    ++ (List.range ww).map (fun k => blackmanVal (2 * ww) (ww + k)))

/-- **C7** (counterexample to the claim as stated).  With `tw = 2`,
`dt = 1`, `n = 4` we have `ww = 2` and `2·ww = 4 ≥ n`, yet the window
generator does not report an error: `np.ones(0)` succeeds and the code
silently produces a window (with no constant run), contradicting the
claim that every `2·ww ≥ n` input is rejected. -/
theorem cyclicize_boundary_counterexample :
    4 ≤ 2 * wwOf 2 1 ∧ cyclicizeWindow (wwOf 2 1) 4 ≠ none := by
  have hww : wwOf 2 1 = 2 := by
    unfold wwOf
    norm_num
  rw [hww]
  constructor
  · norm_num
  · simp [cyclicizeWindow]

/-- **C7** (amended).  The edge window generator reports an error
(`ValueError` from the negative `np.ones` dimension, modelled by `none`)
exactly when `2·ww > n`; when `2·ww = n` it silently produces the rising
and falling taper halves with an empty constant run; and whenever
`2·ww ≤ n` it produces the concatenation of the rising half of the
`2·ww`-point Blackman taper, `n - 2·ww` ones, and the falling half of
the same taper — a window of length exactly `n`. -/
theorem cyclicize_window_spec (tw dt : ℝ) (n : ℕ) :
    (n < 2 * wwOf tw dt → cyclicizeWindow (wwOf tw dt) n = none) ∧
      (2 * wwOf tw dt ≤ n →
        cyclicizeWindow (wwOf tw dt) n =
          some ((List.range (wwOf tw dt)).map
              (fun k => blackmanVal (2 * wwOf tw dt) k)
            ++ List.replicate (n - 2 * wwOf tw dt) 1
            ++ (List.range (wwOf tw dt)).map
              (fun k => blackmanVal (2 * wwOf tw dt) (wwOf tw dt + k))) ∧
        ∀ L, cyclicizeWindow (wwOf tw dt) n = some L → L.length = n) := by
  constructor
  · intro hlt
    unfold cyclicizeWindow
    rw [if_pos hlt]
  · intro hle
    have hnlt : ¬n < 2 * wwOf tw dt := not_lt.mpr hle
    constructor
    · unfold cyclicizeWindow
      rw [if_neg hnlt]
    · intro L hL
      unfold cyclicizeWindow at hL
      rw [if_neg hnlt] at hL
      have hL' := Option.some.inj hL
      rw [← hL']
      simp only [List.length_append, List.length_map, List.length_range,
        List.length_replicate]
      omega

/-- Witness for `cyclicize_window_spec` at `tw = 1`, `dt = 1`, `n = 5`
(so `ww = 1`, `2·ww = 2 < 5`). -/
theorem cyclicize_window_spec_witness :
    2 * wwOf 1 1 ≤ 5 ∧
      (cyclicizeWindow (wwOf 1 1) 5 =
          some ((List.range (wwOf 1 1)).map
              (fun k => blackmanVal (2 * wwOf 1 1) k)
            ++ List.replicate (5 - 2 * wwOf 1 1) 1
            ++ (List.range (wwOf 1 1)).map
              (fun k => blackmanVal (2 * wwOf 1 1) (wwOf 1 1 + k))) ∧
        ∀ L, cyclicizeWindow (wwOf 1 1) 5 = some L → L.length = 5) := by
  have hww : wwOf 1 1 = 1 := by
    unfold wwOf
    norm_num
  have hle : 2 * wwOf 1 1 ≤ 5 := by rw [hww]; norm_num
  exact ⟨hle, (cyclicize_window_spec 1 1 5).2 hle⟩

/-! ## Frame effect: what the stages overwrite

In demodulate.py every stage creates new `workup/...` datasets and never
rewrites the ingested dataset `'y'`.  In freqdemod.py, however,
`Signal.binarate` reassigns the ingested key:

    self.signal['s_original'] = copy.deepcopy(self.signal['s'])
    ...
    self.signal['s'] = self.signal['s'][array_indices]
-/

/-- For a valid mode the binarate bounds are always produced, have width
`n2of n`, and lie inside `[0, n]` (for `n ≥ 1`). -/
lemma modeBounds_valid (n : ℕ) (hn : 1 ≤ n) (mode : String)
    (hm : mode = "start" ∨ mode = "middle" ∨ mode = "end") :
    ∃ a b, modeBounds n mode = some (a, b) ∧ b - a = n2of n ∧ a ≤ b ∧ b ≤ n := by
  have h2 := n2of_le hn
  rcases hm with hm | hm | hm
  · exact ⟨0, n2of n, by simp [modeBounds, hm], by omega, by omega, h2⟩
  · exact ⟨(n - n2of n) / 2, (n - n2of n) / 2 + n2of n,
      by simp [modeBounds, hm], by omega, by omega, by omega⟩
  · exact ⟨n - n2of n, n, by simp [modeBounds, hm], by omega, by omega, le_refl n⟩

/-- **C9** (counterexample to the claim as stated).  freqdemod.py's
`binarate` is a pipeline stage that *does* overwrite the ingested sample
sequence: on the 3-sample signal `[1, 2, 3]` with mode "start" it
replaces `s` by the truncated `[1, 2]`, so after the stage the ingested
key no longer holds the original sequence. -/
theorem binarate_overwrites_counterexample :
    (binarate "start" ⟨[1, 2, 3], []⟩).map FSignal.s = some [1, 2] ∧
      some [(1 : ℚ), 2] ≠ some [(1 : ℚ), 2, 3] := by
  have hlog : Nat.log 2 3 = 1 := by
    rw [Nat.log_eq_of_pow_le_of_lt_pow] <;> norm_num
  have h3 : n2of 3 = 2 := by
    rw [n2of, hlog]
    norm_num
  constructor
  · simp only [binarate, modeBounds, List.length_cons, List.length_nil, h3]
    norm_num
  · simp

/-- **C9** (amended).  In the demodulate.py pipeline the mask stage only
adds its new named artifact and leaves the ingested signal `y`
unchanged; freqdemod.py's `binarate`, by contrast, overwrites the
ingested `s` with its truncation to length `n2of n` while saving the
original sequence under the *new* name `s_original` — the original data
survives only under that new key, not under the ingested one. -/
theorem pipeline_artifact_spec (mode : String) (st : DState) (sig : FSignal)
    (hm : mode = "start" ∨ mode = "middle" ∨ mode = "end")
    (hs : 1 ≤ sig.s.length) :
    (∃ st', dTimeMaskBinarate mode st = some st' ∧ st'.y = st.y) ∧
      (∃ sig', binarate mode sig = some sig' ∧ sig'.s_original = sig.s ∧
        sig'.s.length = n2of sig.s.length) := by
  obtain ⟨a, b, hab, hwidth, hle, hbn⟩ :=
    modeBounds_valid sig.s.length hs mode hm
  constructor
  · have hmb : ∃ p : ℕ × ℕ, modeBounds st.y.length mode = some p := by
      rcases hm with hm | hm | hm
      · exact ⟨(0, n2of st.y.length), by rw [hm]; simp [modeBounds]⟩
      · exact ⟨((st.y.length - n2of st.y.length) / 2,
          (st.y.length - n2of st.y.length) / 2 + n2of st.y.length),
          by rw [hm]; simp [modeBounds]⟩
      · exact ⟨(st.y.length - n2of st.y.length, st.y.length),
          by rw [hm]; simp [modeBounds]⟩
    obtain ⟨p, hp⟩ := hmb
    refine ⟨{ st with maskBinarate := some ((List.range st.y.length).map fun i => decide (p.1 ≤ i ∧ i < p.2)) }, ?_, rfl⟩
    simp [dTimeMaskBinarate, timeMaskBinarate, hp]
  · refine ⟨{ s := (sig.s.drop a).take (b - a), s_original := sig.s }, ?_, rfl, ?_⟩
    · simp [binarate, hab]
    · simp only [List.length_take, List.length_drop]
      omega

/-- Witness for `pipeline_artifact_spec` with mode "end", a 1-sample
state signal and the 3-sample dictionary signal `[1, 2, 3]`. -/
theorem pipeline_artifact_spec_witness :
    (("end" = "start" ∨ "end" = "middle" ∨ "end" = "end") ∧
        1 ≤ ([(1 : ℚ), 2, 3] : List ℚ).length) ∧
      (∃ st', dTimeMaskBinarate "end" ⟨[0], none⟩ = some st' ∧ st'.y = [0]) ∧
        (∃ sig', binarate "end" ⟨[1, 2, 3], []⟩ = some sig' ∧
          sig'.s_original = [1, 2, 3] ∧
          sig'.s.length = n2of ([(1 : ℚ), 2, 3] : List ℚ).length) :=
  ⟨⟨Or.inr (Or.inr rfl), by norm_num⟩,
    pipeline_artifact_spec "end" ⟨[0], none⟩ ⟨[1, 2, 3], []⟩
      (Or.inr (Or.inr rfl)) (by norm_num)⟩
